import Mathlib

/-!
Shallow embedding of the completion subsystem of `edit/completers.go`:
the completer dispatcher (`complete`), the five context detectors
(`complVariable`, `complIndex`, `complFormHead`, `complRedir`, `complArg`),
and the filename candidate producer (`complFilenameInner`).

Strings are modelled as Lean `String` (a list of characters); all string
operations used by the code are implemented structurally over the character
list so that they evaluate inside the kernel.  Go's byte-wise string order
agrees with code-point order on UTF-8 data, which is the character order
used here.

External collaborators (the parser's node type, the evaluation context, the
filesystem, the candidate filter/styler, and the argument-completion
resolver) are modelled as explicit data passed to the functions.
-/

/-! ## String helpers (Go `strings` / `path` equivalents, char-list based) -/

/-- Go `strings.HasPrefix p` on the character-list view of strings. -/
def strHasPrefix (s p : String) : Bool :=
  p.data.isPrefixOf s.data

/-- Go `s[n:]` (drop the first `n` characters). -/
def strDrop (s : String) (n : Nat) : String :=
  String.mk (s.data.drop n)

/-- Go `s[:n]` (take the first `n` characters). -/
def strTake (s : String) (n : Nat) : String :=
  String.mk (s.data.take n)

/-- Go `s[:len(s)-1]` (drop the final character). -/
def strDropLast (s : String) : String :=
  String.mk s.data.dropLast

/-- Go byte-wise `<=` on strings, as lexicographic order on characters. -/
def strLeList : List Char → List Char → Bool
  | [], _ => true
  | _ :: _, [] => false
  | a :: as, b :: bs =>
    if a.toNat < b.toNat then true
    else if b.toNat < a.toNat then false
    else strLeList as bs

/-- Lexicographic `<=` on strings (agrees with Go's byte-wise order). -/
def strLe (a b : String) : Bool :=
  strLeList a.data b.data

/-- The ordering relation used when sorting candidate name lists. -/
def StrLeR (a b : String) : Prop := strLe a b = true

instance : DecidableRel StrLeR := fun _ _ => inferInstanceAs (Decidable (_ = true))

/-- Last position of character `c` in `l`, if any (Go `strings.LastIndex`). -/
def lastIdxOf (l : List Char) (c : Char) : Option Nat :=
  match l with
  | [] => none
  | a :: as =>
    match lastIdxOf as c with
    | some i => some (i + 1)
    | none => if a = c then some 0 else none

/-- Go `path.Split`: splits just after the final slash; the directory
component keeps its trailing slash. -/
def pathSplit (p : String) : String × String :=
  match lastIdxOf p.data '/' with
  | none => ("", p)
  | some i => (strTake p (i + 1), strDrop p (i + 1))

/-! ## Syntax nodes

The parser (`parse` package) is an external collaborator; nodes carry only
the attributes the completers consume: kind tag, begin/end offsets, parent
link, the primary's type and source value, an indexing node's head and
index count, a form's head and argument list, and (for compound nodes) the
literal text of a simple compound.  Go compares node pointers for identity;
`nid` models that pointer identity. -/

inductive PrimaryType where
  | badPrimary | bareword | singleQuoted | doubleQuoted | variable
  | wildcard | tilde
deriving DecidableEq, Repr

inductive NodeTag where
  | sep | primary | indexing | array | chunk | pipeline | compound | form
  | redir | other
deriving DecidableEq, Repr

inductive Node where
  | mk (nid : Nat) (nbegin : Nat) (nend : Nat) (tag : NodeTag)
       (ptype : PrimaryType) (pval : String)
       (headNode : Option Node) (args : List Node) (nIndices : Nat)
       (simpleText : Option String) (parent : Option Node)
deriving Repr

def Node.nid : Node → Nat
  | .mk i _ _ _ _ _ _ _ _ _ _ => i

def Node.nbegin : Node → Nat
  | .mk _ b _ _ _ _ _ _ _ _ _ => b

def Node.nend : Node → Nat
  | .mk _ _ e _ _ _ _ _ _ _ _ => e

def Node.tag : Node → NodeTag
  | .mk _ _ _ t _ _ _ _ _ _ _ => t

def Node.ptype : Node → PrimaryType
  | .mk _ _ _ _ t _ _ _ _ _ _ => t

def Node.pval : Node → String
  | .mk _ _ _ _ _ v _ _ _ _ _ => v

def Node.headNode : Node → Option Node
  | .mk _ _ _ _ _ _ h _ _ _ _ => h

def Node.args : Node → List Node
  | .mk _ _ _ _ _ _ _ a _ _ _ => a

def Node.nIndices : Node → Nat
  | .mk _ _ _ _ _ _ _ _ n _ _ => n

def Node.simpleText : Node → Option String
  | .mk _ _ _ _ _ _ _ _ _ s _ => s

def Node.parent : Node → Option Node
  | .mk _ _ _ _ _ _ _ _ _ _ p => p

/-- Go `parse.IsSep(n)` etc. applied to a possibly-nil node. -/
def isTag (o : Option Node) (t : NodeTag) : Bool :=
  match o with
  | some m => m.tag = t
  | none => false

/-- Go `parse.GetPrimary(n)`: the node viewed as a primary, when it is one. -/
def getPrimary (n : Node) : Option (PrimaryType × String) :=
  match n.tag with
  | .primary => some (n.ptype, n.pval)
  | _ => none

/-- Go pointer equality between a possibly-nil node and a node. -/
def sameNode (o : Option Node) (m : Node) : Bool :=
  match o with
  | some a => a.nid = m.nid
  | none => false

/-! ## Candidates, errors, values, and the environment -/

/-- Raw candidates before styling: `plainCandidate`, `noQuoteCandidate`, and
`complexCandidate` (stem + code suffix + style) from the source. -/
inductive RawCandidate where
  | plain (text : String)
  | noQuote (text : String)
  | complex (stem codeSuffix style : String)
deriving DecidableEq, Repr

/-- The text a raw candidate sorts by (Go's `plainCandidates.Less`). -/
def rawCandText : RawCandidate → String
  | .plain s => s
  | .noQuote s => s
  | .complex stem _ _ => stem

/-- Ordering of raw candidates by their text, used by `sort.Sort` on
`plainCandidates`. -/
def RawCandLeR (a b : RawCandidate) : Prop := StrLeR (rawCandText a) (rawCandText b)

instance : DecidableRel RawCandLeR := fun _ _ =>
  inferInstanceAs (Decidable (StrLeR _ _))

/-- A cooked (filtered and styled) candidate, produced by the external
filter/styler; its contents are opaque to this core. -/
structure Candidate where
  text : String
deriving DecidableEq, Repr

/-- Completion errors.  `unapplicable` is the sentinel
`errCompletionUnapplicable`; every other error is a message
(Go `errors.New` / `fmt.Errorf`). -/
inductive CErr where
  | unapplicable
  | msg (s : String)
deriving DecidableEq, Repr

/-- Go `errCannotEvalIndexee` from the source. -/
def errCannotEvalIndexee : CErr := CErr.msg "cannot evaluate indexee"

/-- Go `errCannotIterateKey` from the source. -/
def errCannotIterateKey : CErr := CErr.msg "indexee does not support iterating keys"

/-- Modelled from the spec: `eval.Value` is external.  A value either is
textual (`eval.String`), supports key iteration (`eval.IterateKeyer`,
carrying the keys its `IterateKey` visits in order), or supports neither. -/
inductive Value where
  | str (s : String)
  | keyed (keys : List Value)
  | plainVal
deriving Repr

/-- The `v.(eval.IterateKeyer)` capability assertion: the keys when the
value supports key iteration, `none` otherwise. -/
def Value.iterateKeyer : Value → Option (List Value)
  | .keyed ks => some ks
  | _ => none

/-- Go `complSpec` from the source: candidates replacing `[begin, end)`. -/
structure ComplSpec where
  begin_ : Int
  end_ : Int
  candidates : List Candidate
deriving DecidableEq, Repr

/-- A directory entry as reported by `ioutil.ReadDir` / `os.Stat`: name,
directory flag, permission bits (`mode & 0111` is the executable test) and
symlink flag of the mode word. -/
structure FileInfo where
  name : String
  isDir : Bool
  mode : Nat
  isSymlink : Bool
deriving DecidableEq, Repr

/-- The filesystem as consumed by the filename candidate producer:
directory listing (`ioutil.ReadDir`), symlink-following `os.Stat`, and the
`ls` color styling (`getLsColor` + `ui.StylesFromString`, external). -/
structure Fs where
  readDir : String → Except String (List FileInfo)
  stat : String → Option FileInfo
  lsStyle : String → String

/-- The evaluation context (`eval.Evaler`) plus the external collaborators
the completers call through it.  Variable scopes and module tables are
name lists / association lists (Go map iteration feeds a sort, so only
contents matter); `purelyEvalPrimary`, `filterAndCookCandidates`,
`EachExternal` and `completeArg` are external to the shown source and are
modelled from the spec as opaque functions and lists. -/
structure Env where
  builtin : List String
  global : List String
  environ : List String
  modules : List (String × List String)
  externals : List String
  isBuiltinSpecial : List String
  fs : Fs
  purelyEvalPrimary : Option Node → Option Value
  filterAndCook : String → String → List RawCandidate → PrimaryType →
    Except String (List Candidate)
  completeArg : List String → Except String (List RawCandidate)

/-! ## Variable-name parsing (eval package helpers)

`eval.ParseVariableSplice`, `eval.ParseVariableQName`, `eval.ParseVariable`
and `eval.MakeVariableName` are repository code outside the given sources. -/

/-- Modelled from the spec: `eval.ParseVariableSplice` splits the leading
splice marker `@` (if any) from the qualified name. -/
def parseVariableSplice (text : String) : String × String :=
  if strHasPrefix text "@" then ("@", strDrop text 1) else ("", text)

/-- Modelled from the spec: `eval.ParseVariableQName` splits a qualified
name into the namespace qualifier up to and including the final `:`
separator, and the bare name head after it. -/
def parseVariableQName (qname : String) : String × String :=
  match lastIdxOf qname.data ':' with
  | none => ("", qname)
  | some i => (strTake qname (i + 1), strDrop qname (i + 1))

/-- Modelled from the spec: `eval.ParseVariable` — splice marker as a flag,
namespace without the trailing `:`, and the bare name. -/
def parseVariable (text : String) : Bool × String × String :=
  let (ex, qname) := parseVariableSplice text
  let (nsPart, name) := parseVariableQName qname
  (ex ≠ "", (if nsPart.length > 0 then strDropLast nsPart else nsPart), name)

/-- Modelled from the spec: `eval.FnPrefix`, the storage prefix of
function-valued variables. -/
def fnPrefix : String := "fn-"

/-- Modelled from the spec: `eval.MakeVariableName` renders a variable
reference from splice flag, namespace and bare name. -/
def makeVariableName (explode : Bool) (ns name : String) : String :=
  (if explode then "@" else "") ++ (if ns = "" then "" else ns ++ ":") ++ name

/-- The key of an environment entry `"name=value"`
(Go `s[:strings.IndexByte(s, '=')]`). -/
def envKey (s : String) : String :=
  String.mk (s.data.takeWhile (fun c => c ≠ '='))

/-- Modelled from the spec: `util.DontSearch` — the partial command head
must be taken literally when it is the parent-directory token `..` or
contains a path separator. -/
def dontSearch (head : String) : Bool :=
  head = ".." || head.data.contains '/'

/-- Modelled from the spec: `primaryInSimpleCompound` returns the enclosing
compound node and the partial text already typed when the primary is the
sole constituent of a simple compound, and no node otherwise. -/
def primaryInSimpleCompound (pn : Node) : Option Node × String :=
  match pn.parent with
  | some c =>
    match c.tag, c.simpleText with
    | .compound, some t => (some c, t)
    | _, _ => (none, "")
  | none => (none, "")

/-- Modelled from the spec: `simpleCompound` resolves a compound node to
its literal text when it is a simple literal (reporting success), and
reports failure otherwise.  A nil node resolves to the empty string. -/
def simpleCompound (o : Option Node) : Bool × String :=
  match o with
  | some c =>
    match c.tag, c.simpleText with
    | .compound, some t => (true, t)
    | _, _ => (false, "")
  | none => (false, "")

/-! ## The variable completer -/

/-- Go `iterateVariables` from the source, as the list of names it visits:
empty namespace → builtin then global scope; `E` → environment variable
names; otherwise the module bound to the namespace (no module → nothing). -/
def iterateVariablesList (ev : Env) (ns : String) : List String :=
  if ns = "" then ev.builtin ++ ev.global
  else if ns = "E" then ev.environ.map envKey
  else (ev.modules.lookup ns).getD []

/-- Go `hasProperPrefix` from the source. -/
def hasProperPrefix (s p : String) : Bool :=
  s.length > p.length && strHasPrefix s p

/-- The sorted pre-filter entry list built by `complVariable`: names
visible in namespace `ns` plus, for every module whose qualifier properly
extends `nsPart`, the remainder of that qualifier. -/
def complVariableEntries (ev : Env) (ns nsPart : String) : List String :=
  let entries := iterateVariablesList ev ns
  let entries := entries ++ (ev.modules.map Prod.fst).filterMap (fun mod =>
    let modNsPart := mod ++ ":"
    if hasProperPrefix modNsPart nsPart then some (strDrop modNsPart nsPart.length)
    else none)
  List.insertionSort StrLeR entries

/-- Go `complVariable` from the source. -/
def complVariable (n : Node) (ev : Env) : Option ComplSpec × Option CErr :=
  match getPrimary n with
  | none => (none, some CErr.unapplicable)
  | some (t, value) =>
    if t ≠ PrimaryType.variable then (none, some CErr.unapplicable)
    else
      let begin0 := n.nbegin + 1
      let (explode, qname) := parseVariableSplice value
      let (nsPart, nameHead) := parseVariableQName qname
      let begin1 := begin0 + explode.length + nsPart.length
      let ns := if nsPart.length > 0 then strDropLast nsPart else nsPart
      let entries := complVariableEntries ev ns nsPart
      let rawCands := entries.map RawCandidate.noQuote
      match ev.filterAndCook "variable" nameHead rawCands PrimaryType.bareword with
      | .error e => (none, some (CErr.msg e))
      | .ok cands => (some ⟨(begin1 : Int), (n.nend : Int), cands⟩, none)

/-! ## The index completer -/

/-- Go `findIndexContext` from the source: begin/end offsets (`-1` when not in
an index context), the current index text and its type, and the indexee.
The Go original falls through three mutually exclusive structural shapes;
they are rendered as one conditional chain. -/
def findIndexContext (n : Node) :
    Int × Int × String × PrimaryType × Option Node :=
  if n.tag = NodeTag.sep then
    match n.parent with
    | some p =>
      if p.tag = NodeTag.indexing then
        if p.nIndices = 1 then
          ((n.nend : Int), (n.nend : Int), "", PrimaryType.bareword, p.headNode)
        else (-1, -1, "", PrimaryType.badPrimary, none)
      else if p.tag = NodeTag.array then
        match p.parent with
        | some ind =>
          if ind.tag = NodeTag.indexing ∧ ind.nIndices = 1 then
            ((n.nend : Int), (n.nend : Int), "", PrimaryType.bareword, ind.headNode)
          else (-1, -1, "", PrimaryType.badPrimary, none)
        | none => (-1, -1, "", PrimaryType.badPrimary, none)
      else (-1, -1, "", PrimaryType.badPrimary, none)
    | none => (-1, -1, "", PrimaryType.badPrimary, none)
  else if n.tag = NodeTag.primary then
    match primaryInSimpleCompound n with
    | (some compound, current) =>
      match compound.parent with
      | some arr =>
        if arr.tag = NodeTag.array then
          match arr.parent with
          | some ind =>
            if ind.tag = NodeTag.indexing ∧ ind.nIndices = 1 then
              ((compound.nbegin : Int), (compound.nend : Int), current,
                n.ptype, ind.headNode)
            else (-1, -1, "", PrimaryType.badPrimary, none)
          | none => (-1, -1, "", PrimaryType.badPrimary, none)
        else (-1, -1, "", PrimaryType.badPrimary, none)
      | none => (-1, -1, "", PrimaryType.badPrimary, none)
    | (none, _) => (-1, -1, "", PrimaryType.badPrimary, none)
  else (-1, -1, "", PrimaryType.badPrimary, none)

/-- The indexing node the index detector consults for node `n`: the parent
of a separator directly under an indexing node, the grandparent of a
separator under an array under an indexing node, or the great-grandparent
of a primary in a simple compound under an array under an indexing node. -/
def enclosingIndexing (n : Node) : Option Node :=
  if n.tag = NodeTag.sep then
    match n.parent with
    | some p =>
      if p.tag = NodeTag.indexing then some p
      else if p.tag = NodeTag.array then
        match p.parent with
        | some ind => if ind.tag = NodeTag.indexing then some ind else none
        | none => none
      else none
    | none => none
  else if n.tag = NodeTag.primary then
    match primaryInSimpleCompound n with
    | (some compound, _) =>
      match compound.parent with
      | some arr =>
        if arr.tag = NodeTag.array then
          match arr.parent with
          | some ind => if ind.tag = NodeTag.indexing then some ind else none
          | none => none
        else none
      | none => none
    | (none, _) => none
  else none

/-- Go `complIndexInner` from the source: the string-valued keys of the
indexee, as plain candidates, sorted. -/
def complIndexInner (keys : List Value) : List RawCandidate :=
  List.insertionSort RawCandLeR
    (keys.filterMap (fun v =>
      match v with
      | .str s => some (RawCandidate.plain s)
      | _ => none))

/-- Go `complIndex` from the source. -/
def complIndex (n : Node) (ev : Env) : Option ComplSpec × Option CErr :=
  let (begin_, end_, current, q, indexee) := findIndexContext n
  if begin_ = -1 then (none, some CErr.unapplicable)
  else
    match ev.purelyEvalPrimary indexee with
    | none => (none, some errCannotEvalIndexee)
    | some v =>
      match v.iterateKeyer with
      | none => (none, some errCannotIterateKey)
      | some keys =>
        let rawCands := complIndexInner keys
        match ev.filterAndCook "index" current rawCands q with
        | .error e => (none, some (CErr.msg e))
        | .ok cands => (some ⟨begin_, end_, cands⟩, none)

/-! ## The command-head completer -/

/-- Go `findFormHeadContext` from the source. -/
def findFormHeadContext (n : Node) : Int × Int × String × PrimaryType :=
  if n.tag = NodeTag.chunk then ((n.nend : Int), (n.nend : Int), "", PrimaryType.bareword)
  else if n.tag = NodeTag.sep ∧
      (isTag n.parent NodeTag.chunk ∨ isTag n.parent NodeTag.pipeline) then
    ((n.nend : Int), (n.nend : Int), "", PrimaryType.bareword)
  else if n.tag = NodeTag.primary then
    match primaryInSimpleCompound n with
    | (some compound, head) =>
      match compound.parent with
      | some f =>
        if f.tag = NodeTag.form ∧ sameNode f.headNode compound then
          ((compound.nbegin : Int), (compound.nend : Int), head, n.ptype)
        else (-1, -1, "", PrimaryType.badPrimary)
      | none => (-1, -1, "", PrimaryType.badPrimary)
    | (none, _) => (-1, -1, "", PrimaryType.badPrimary)
  else (-1, -1, "", PrimaryType.badPrimary)

/-- The directory that `complFilenameInner` lists for a partial path:
its directory component, or `.` when that component is empty. -/
def dirToReadOf (head : String) : String :=
  let dir := (pathSplit head).1
  if dir = "" then "." else dir

/-- The code suffix `complFilenameInner` attaches to a retained entry:
`/` for a directory or a symlink that (following links) resolves to a
directory, a space otherwise. -/
def fileSuffix (fs : Fs) (full : String) (info : FileInfo) : String :=
  if info.isDir then "/"
  else if info.isSymlink then
    match fs.stat full with
    | some st => if st.isDir then "/" else " "
    | none => " "
  else " "

/-- The `complexCandidate` built by `complFilenameInner` for a retained
directory entry. -/
def fileComplCandidate (fs : Fs) (dir : String) (info : FileInfo) : RawCandidate :=
  let full := dir ++ info.name
  RawCandidate.complex full (fileSuffix fs full info) (fs.lsStyle full)

/-- Go `dotfile` from the source. -/
def dotfile (fname : String) : Bool :=
  strHasPrefix fname "."

/-- Go `complFilenameInner` from the source: list the directory component,
keep entries whose hidden status matches the file prefix (and, when
`executableOnly`, directories and executables), and attach suffixes. -/
def complFilenameInner (fs : Fs) (head : String) (executableOnly : Bool) :
    Except CErr (List RawCandidate) :=
  let dir := (pathSplit head).1
  let filePart := (pathSplit head).2
  let dirToRead := dirToReadOf head
  match fs.readDir dirToRead with
  | .error e =>
    .error (CErr.msg ("cannot list directory " ++ dirToRead ++ ": " ++ e))
  | .ok infos =>
    .ok ((infos.filter (fun info =>
        (dotfile filePart == dotfile info.name) &&
        (!executableOnly || (info.isDir || info.mode &&& 0o111 != 0)))).map
      (fileComplCandidate fs dir))

/-- Go `complFormHeadInner` from the source: filesystem candidates when the
head must be taken literally; otherwise special forms, function and
non-function variables, external commands, and module qualifiers, sorted. -/
def complFormHeadInner (head : String) (ev : Env) :
    Except CErr (List RawCandidate) :=
  if dontSearch head then complFilenameInner ev.fs head true
  else
    let specials := ev.isBuiltinSpecial.map RawCandidate.plain
    let (explode, ns, _) := parseVariable head
    let varCands :=
      if !explode then
        (iterateVariablesList ev ns).map (fun varname =>
          if strHasPrefix varname fnPrefix then
            RawCandidate.plain (makeVariableName false ns (strDrop varname fnPrefix.length))
          else
            RawCandidate.plain (makeVariableName false ns varname ++ "="))
      else []
    let extCands := ev.externals.flatMap (fun command =>
      RawCandidate.plain command ::
        (if strHasPrefix head "e:" then [RawCandidate.plain ("e:" ++ command)] else []))
    let modCands := (ev.modules.map Prod.fst).filterMap (fun ns2 =>
      if head ≠ ns2 ++ ":" then some (RawCandidate.plain (ns2 ++ ":")) else none)
    .ok (List.insertionSort RawCandLeR (specials ++ varCands ++ extCands ++ modCands))

/-- Go `complFormHead` from the source. -/
def complFormHead (n : Node) (ev : Env) : Option ComplSpec × Option CErr :=
  let (begin_, end_, head, q) := findFormHeadContext n
  if begin_ = -1 then (none, some CErr.unapplicable)
  else
    match complFormHeadInner head ev with
    | .error e => (none, some e)
    | .ok rawCands =>
      match ev.filterAndCook "command" head rawCands q with
      | .error e => (none, some (CErr.msg e))
      | .ok cands => (some ⟨begin_, end_, cands⟩, none)

/-! ## The redirection completer -/

/-- Go `findRedirContext` from the source. -/
def findRedirContext (n : Node) : Int × Int × String × PrimaryType :=
  if n.tag = NodeTag.sep ∧ isTag n.parent NodeTag.redir then
    ((n.nend : Int), (n.nend : Int), "", PrimaryType.bareword)
  else if n.tag = NodeTag.primary then
    match primaryInSimpleCompound n with
    | (some compound, head) =>
      if isTag compound.parent NodeTag.redir then
        ((compound.nbegin : Int), (compound.nend : Int), head, n.ptype)
      else (-1, -1, "", PrimaryType.badPrimary)
    | (none, _) => (-1, -1, "", PrimaryType.badPrimary)
  else (-1, -1, "", PrimaryType.badPrimary)

/-- Go `complRedir` from the source. -/
def complRedir (n : Node) (ev : Env) : Option ComplSpec × Option CErr :=
  let (begin_, end_, current, q) := findRedirContext n
  if begin_ = -1 then (none, some CErr.unapplicable)
  else
    match complFilenameInner ev.fs current false with
    | .error e => (none, some e)
    | .ok rawCands =>
      match ev.filterAndCook "redirect" current rawCands q with
      | .error e => (none, some (CErr.msg e))
      | .ok cands => (some ⟨begin_, end_, cands⟩, none)

/-! ## The argument completer -/

/-- Go `findArgContext` from the source. -/
def findArgContext (n : Node) : Int × Int × String × PrimaryType × Option Node :=
  if n.tag = NodeTag.sep then
    match n.parent with
    | some f =>
      if f.tag = NodeTag.form ∧ f.headNode.isSome then
        ((n.nend : Int), (n.nend : Int), "", PrimaryType.bareword, some f)
      else (-1, -1, "", PrimaryType.badPrimary, none)
    | none => (-1, -1, "", PrimaryType.badPrimary, none)
  else if n.tag = NodeTag.primary then
    match primaryInSimpleCompound n with
    | (some compound, head) =>
      match compound.parent with
      | some f =>
        if f.tag = NodeTag.form ∧ f.headNode.isSome ∧ ¬ sameNode f.headNode compound then
          ((compound.nbegin : Int), (compound.nend : Int), head, n.ptype, some f)
        else (-1, -1, "", PrimaryType.badPrimary, none)
      | none => (-1, -1, "", PrimaryType.badPrimary, none)
    | (none, _) => (-1, -1, "", PrimaryType.badPrimary, none)
  else (-1, -1, "", PrimaryType.badPrimary, none)

/-- Go `complArg` from the source: head text, preceding simple arguments, and
the current text are handed to the external argument-completion resolver. -/
def complArg (n : Node) (ev : Env) : Option ComplSpec × Option CErr :=
  match findArgContext n with
  | (begin_, end_, current, q, some form) =>
    if begin_ = -1 then (none, some CErr.unapplicable)
    else
      let head := (simpleCompound form.headNode).2
      let args := (form.args.takeWhile (fun c => (c.nbegin : Int) < begin_)).filterMap
        (fun c =>
          let (ok, arg) := simpleCompound (some c)
          if ok then some arg else none)
      let words := [head] ++ args ++ [current]
      match ev.completeArg words with
      | .error e => (none, some (CErr.msg e))
      | .ok rawCands =>
        match ev.filterAndCook "argument" current rawCands q with
        | .error e => (none, some (CErr.msg e))
        | .ok cands => (some ⟨begin_, end_, cands⟩, none)
  | (_, _, _, _, none) => (none, some CErr.unapplicable)

/-! ## The dispatcher -/

/-- The type of a completer (`completer` in the source). -/
def Completer := Node → Env → Option ComplSpec × Option CErr

/-- The dispatch loop of `complete` over a list of named completers. -/
def completeList (cs : List (String × Completer)) (n : Node) (ev : Env) :
    String × Option ComplSpec × Option CErr :=
  match cs with
  | [] => ("", none, none)
  | (name, c) :: rest =>
    let (compl, err) := c n ev
    match compl with
    | some s => (name, some s, none)
    | none =>
      match err with
      | some e =>
        if e ≠ CErr.unapplicable then (name, none, some e)
        else completeList rest n ev
      | none => completeList rest n ev

/-- Go `completers` from the source: the fixed priority list. -/
def completers : List (String × Completer) :=
  [("variable", complVariable), ("index", complIndex),
   ("command name", complFormHead), ("redir", complRedir),
   ("argument", complArg)]

/-- Go `complete` from the source. -/
def complete (n : Node) (ev : Env) : String × Option ComplSpec × Option CErr :=
  completeList completers n ev

/-! ## Properties of the candidate ordering -/

theorem strLeList_total (l1 l2 : List Char) :
    strLeList l1 l2 = true ∨ strLeList l2 l1 = true := by
  induction l1 generalizing l2 with
  | nil => left; rfl
  | cons a as ih =>
    cases l2 with
    | nil => right; rfl
    | cons b bs =>
      simp only [strLeList]
      rcases Nat.lt_trichotomy a.toNat b.toNat with h | h | h
      · left; simp [h]
      · have h1 : ¬ a.toNat < b.toNat := by omega
        have h2 : ¬ b.toNat < a.toNat := by omega
        simpa [h1, h2] using ih bs
      · right; simp [h]

theorem strLeList_trans (l1 l2 l3 : List Char) (h12 : strLeList l1 l2 = true)
    (h23 : strLeList l2 l3 = true) : strLeList l1 l3 = true := by
  induction l1 generalizing l2 l3 with
  | nil => rfl
  | cons a as ih =>
    cases l2 with
    | nil => simp [strLeList] at h12
    | cons b bs =>
      cases l3 with
      | nil => simp [strLeList] at h23
      | cons c cs =>
        simp only [strLeList] at h12 h23 ⊢
        rcases Nat.lt_trichotomy a.toNat b.toNat with hab | hab | hab
        · rcases Nat.lt_trichotomy b.toNat c.toNat with hbc | hbc | hbc
          · have hac : a.toNat < c.toNat := by omega
            simp [hac]
          · have hac : a.toNat < c.toNat := by omega
            simp [hac]
          · have h3 : ¬ b.toNat < c.toNat := by omega
            simp [h3, hbc] at h23
        · rcases Nat.lt_trichotomy b.toNat c.toNat with hbc | hbc | hbc
          · have hac : a.toNat < c.toNat := by omega
            simp [hac]
          · have h1 : ¬ a.toNat < b.toNat := by omega
            have h2 : ¬ b.toNat < a.toNat := by omega
            have h3 : ¬ b.toNat < c.toNat := by omega
            have h4 : ¬ c.toNat < b.toNat := by omega
            have h5 : ¬ a.toNat < c.toNat := by omega
            have h6 : ¬ c.toNat < a.toNat := by omega
            simp only [h1, h2, if_false] at h12
            simp only [h3, h4, if_false] at h23
            simp only [h5, h6, if_false]
            exact ih bs cs h12 h23
          · have h3 : ¬ b.toNat < c.toNat := by omega
            simp [h3, hbc] at h23
        · have h1 : ¬ a.toNat < b.toNat := by omega
          simp [h1, hab] at h12

instance : IsTotal String StrLeR :=
  ⟨fun a b => strLeList_total a.data b.data⟩

instance : IsTrans String StrLeR :=
  ⟨fun a b c => strLeList_trans a.data b.data c.data⟩

instance : IsTotal RawCandidate RawCandLeR :=
  ⟨fun a b => strLeList_total (rawCandText a).data (rawCandText b).data⟩

instance : IsTrans RawCandidate RawCandLeR :=
  ⟨fun a b c => strLeList_trans (rawCandText a).data (rawCandText b).data
    (rawCandText c).data⟩

/-! ## Dispatcher lemmas -/

theorem completeList_cons_result (name : String) (c : Completer)
    (rest : List (String × Completer)) (n : Node) (ev : Env) (s : ComplSpec)
    (o : Option CErr) (h : c n ev = (some s, o)) :
    completeList ((name, c) :: rest) n ev = (name, some s, none) := by
  simp only [completeList, h]

theorem completeList_cons_error (name : String) (c : Completer)
    (rest : List (String × Completer)) (n : Node) (ev : Env) (e : CErr)
    (h : c n ev = (none, some e)) (he : e ≠ CErr.unapplicable) :
    completeList ((name, c) :: rest) n ev = (name, none, some e) := by
  simp only [completeList, h, if_pos he]

theorem completeList_cons_decline (name : String) (c : Completer)
    (rest : List (String × Completer)) (n : Node) (ev : Env)
    (h : c n ev = (none, some CErr.unapplicable)) :
    completeList ((name, c) :: rest) n ev = completeList rest n ev := by
  simp only [completeList, h, ne_eq, not_true_eq_false, if_false]

theorem completeList_append_decline (pre rest : List (String × Completer))
    (n : Node) (ev : Env)
    (h : ∀ p ∈ pre, p.2 n ev = (none, some CErr.unapplicable)) :
    completeList (pre ++ rest) n ev = completeList rest n ev := by
  induction pre with
  | nil => rfl
  | cons q qs ih =>
    obtain ⟨nm, c⟩ := q
    rw [List.cons_append,
      completeList_cons_decline nm c (qs ++ rest) n ev (h (nm, c) (by simp))]
    exact ih (fun p hp => h p (List.mem_cons_of_mem _ hp))

theorem completeList_result_no_error (cs : List (String × Completer))
    (n : Node) (ev : Env) (nm : String) (sp : ComplSpec) (o : Option CErr)
    (h : completeList cs n ev = (nm, some sp, o)) : o = none := by
  induction cs with
  | nil => simp [completeList] at h
  | cons q rest ih =>
    obtain ⟨name, c⟩ := q
    rcases hc : c n ev with ⟨compl, err⟩
    rcases compl with _ | s
    · rcases err with _ | e
      · rw [completeList, hc] at h
        exact ih h
      · by_cases he : e = CErr.unapplicable
        · subst he
          rw [completeList_cons_decline name c rest n ev hc] at h
          exact ih h
        · rw [completeList_cons_error name c rest n ev e hc he] at h
          simp at h
    · rw [completeList_cons_result name c rest n ev s err hc] at h
      simp only [Prod.mk.injEq] at h
      exact h.2.2.symm

theorem completeList_error_source (cs : List (String × Completer))
    (n : Node) (ev : Env) (nm : String) (e : CErr)
    (h : completeList cs n ev = (nm, none, some e)) :
    ∃ c2 : Completer, (nm, c2) ∈ cs ∧ c2 n ev = (none, some e) := by
  induction cs with
  | nil => simp [completeList] at h
  | cons q rest ih =>
    obtain ⟨name, c⟩ := q
    rcases hc : c n ev with ⟨compl, err⟩
    rcases compl with _ | s
    · rcases err with _ | e2
      · rw [completeList, hc] at h
        obtain ⟨c2, hmem, hc2⟩ := ih h
        exact ⟨c2, List.mem_cons_of_mem _ hmem, hc2⟩
      · by_cases he : e2 = CErr.unapplicable
        · subst he
          rw [completeList_cons_decline name c rest n ev hc] at h
          obtain ⟨c2, hmem, hc2⟩ := ih h
          exact ⟨c2, List.mem_cons_of_mem _ hmem, hc2⟩
        · rw [completeList_cons_error name c rest n ev e2 hc he] at h
          have h2 : e2 = e := by
            have := congrArg (fun t => t.2.2) h
            simpa using this
          have h1 : name = nm := by
            have := congrArg (fun t => t.1) h
            simpa using this
          subst h2
          subst h1
          exact ⟨c, by simp, hc⟩
    · rw [completeList_cons_result name c rest n ev s err hc] at h
      simp at h

/-! ## Shape of the five completers: a non-nil result with a nil error, or
a nil result with a non-nil error -/

/-- The outcome shape every registered completer obeys. -/
def GoodShape (r : Option ComplSpec × Option CErr) : Prop :=
  (∃ s, r = (some s, none)) ∨ (∃ e, r = (none, some e))

theorem shape_complVariable (n : Node) (ev : Env) :
    GoodShape (complVariable n ev) := by
  unfold GoodShape complVariable
  repeat' first
    | (left; exact ⟨_, rfl⟩)
    | (right; exact ⟨_, rfl⟩)
    | split
    | dsimp only

theorem shape_complIndex (n : Node) (ev : Env) :
    GoodShape (complIndex n ev) := by
  unfold GoodShape complIndex
  repeat' first
    | (left; exact ⟨_, rfl⟩)
    | (right; exact ⟨_, rfl⟩)
    | split
    | dsimp only

theorem shape_complFormHead (n : Node) (ev : Env) :
    GoodShape (complFormHead n ev) := by
  unfold GoodShape complFormHead
  repeat' first
    | (left; exact ⟨_, rfl⟩)
    | (right; exact ⟨_, rfl⟩)
    | split
    | dsimp only

theorem shape_complRedir (n : Node) (ev : Env) :
    GoodShape (complRedir n ev) := by
  unfold GoodShape complRedir
  repeat' first
    | (left; exact ⟨_, rfl⟩)
    | (right; exact ⟨_, rfl⟩)
    | split
    | dsimp only

theorem shape_complArg (n : Node) (ev : Env) :
    GoodShape (complArg n ev) := by
  unfold GoodShape complArg
  repeat' first
    | (left; exact ⟨_, rfl⟩)
    | (right; exact ⟨_, rfl⟩)
    | split
    | dsimp only

theorem completers_shape (p : String × Completer) (hp : p ∈ completers)
    (n : Node) (ev : Env) : GoodShape (p.2 n ev) := by
  simp only [completers, List.mem_cons, List.not_mem_nil, or_false] at hp
  rcases hp with rfl | rfl | rfl | rfl | rfl
  · exact shape_complVariable n ev
  · exact shape_complIndex n ev
  · exact shape_complFormHead n ev
  · exact shape_complRedir n ev
  · exact shape_complArg n ev

/-! ## Concrete nodes and environments used to witness the theorems -/

/-- An empty filesystem: every directory listing fails. -/
def fs0 : Fs :=
  { readDir := fun _ => Except.error "no filesystem",
    stat := fun _ => none,
    lsStyle := fun _ => "" }

/-- A filesystem with a single current directory holding `.git`,
`file.txt` and an executable `run.sh`. -/
def fsW : Fs :=
  { readDir := fun d =>
      if d = "." then
        Except.ok [⟨".git", true, 0o755, false⟩, ⟨"file.txt", false, 0o644, false⟩,
          ⟨"run.sh", false, 0o755, false⟩]
      else Except.error "boom",
    stat := fun _ => none,
    lsStyle := fun _ => "" }

/-- A minimal evaluation context whose filter keeps every raw candidate. -/
def envW : Env :=
  { builtin := ["pid"], global := [], environ := [], modules := [],
    externals := [], isBuiltinSpecial := [], fs := fsW,
    purelyEvalPrimary := fun _ => none,
    filterAndCook := fun _ _ raw _ => Except.ok (raw.map (fun r => ⟨rawCandText r⟩)),
    completeArg := fun _ => Except.ok [] }

/-- A node no detector applies to. -/
def node0 : Node := .mk 0 0 0 .other .badPrimary "" none [] 0 none none

/-- The variable-reference primary `$p` spanning offsets 0–2. -/
def nVarW : Node := .mk 1 0 2 .primary .variable "p" none [] 0 none none

/-- A completer that returns both a result and an error (exercising the
dispatcher's discard of errors accompanying a result). -/
def cBoth : Completer := fun _ _ => (some ⟨0, 0, []⟩, some (CErr.msg "both"))

/-- C10: when a completer returns a non-nil complSpec together with a
non-nil error, the dispatcher returns the complSpec with a nil error; an
output carrying a result never carries an error, and an error output
always originates from a completer that returned a nil result with that
error. -/
theorem dispatch_discards_error_beside_result (name : String) (c : Completer)
    (rest : List (String × Completer)) (n : Node) (ev : Env) (s : ComplSpec)
    (e : CErr) (h : c n ev = (some s, some e)) :
    completeList ((name, c) :: rest) n ev = (name, some s, none) ∧
    (∀ cs nm sp o, completeList cs n ev = (nm, some sp, o) → o = none) ∧
    (∀ cs nm e2, completeList cs n ev = (nm, none, some e2) →
      ∃ c2 : Completer, (nm, c2) ∈ cs ∧ c2 n ev = (none, some e2)) := by
  refine ⟨completeList_cons_result name c rest n ev s (some e) h, ?_, ?_⟩
  · intro cs nm sp o hcs
    exact completeList_result_no_error cs n ev nm sp o hcs
  · intro cs nm e2 hcs
    exact completeList_error_source cs n ev nm e2 hcs

/-- Witness for C10 at a concrete completer, node and environment. -/
theorem dispatch_discards_error_beside_result_witness :
    completeList [("w", cBoth)] node0 envW = ("w", some ⟨0, 0, []⟩, none) :=
  (dispatch_discards_error_beside_result "w" cBoth [] node0 envW
    ⟨0, 0, []⟩ (CErr.msg "both") rfl).1

/-- C1: the dispatcher tries the detectors in the fixed order variable,
index, command name, redirection, argument; it stops with the detector's
name and result on the first non-nil result; it continues past a detector
exactly when that detector returns the not-applicable sentinel (each
detector returns either a result with no error or an error); it stops and
surfaces a non-sentinel error; and when every detector declines it returns
an empty name, a nil result and a nil error. -/
theorem complete_dispatch (n : Node) (ev : Env) :
    (completers.map Prod.fst =
      ["variable", "index", "command name", "redir", "argument"]) ∧
    (∀ pre name c post, completers = pre ++ (name, c) :: post →
      (∀ p ∈ pre, p.2 n ev = (none, some CErr.unapplicable)) →
      (∀ s o, c n ev = (some s, o) → complete n ev = (name, some s, none)) ∧
      (∀ e, c n ev = (none, some e) → e ≠ CErr.unapplicable →
        complete n ev = (name, none, some e))) ∧
    ((∀ p ∈ completers, p.2 n ev = (none, some CErr.unapplicable)) →
      complete n ev = ("", none, none)) ∧
    (∀ p ∈ completers, GoodShape (p.2 n ev)) := by
  refine ⟨rfl, ?_, ?_, fun p hp => completers_shape p hp n ev⟩
  · intro pre name c post heq hdecl
    have hrw : complete n ev = completeList ((name, c) :: post) n ev := by
      rw [complete, heq]
      exact completeList_append_decline pre ((name, c) :: post) n ev hdecl
    constructor
    · intro s o hcs
      rw [hrw]
      exact completeList_cons_result name c post n ev s o hcs
    · intro e hcs he
      rw [hrw]
      exact completeList_cons_error name c post n ev e hcs he
  · intro hall
    rw [complete, show completers = completers ++ [] by simp,
      completeList_append_decline completers [] n ev hall]
    rfl

/-- Witness for C1: on the variable primary `$p` the dispatcher stops at
the first detector and reports its name and result. -/
theorem complete_dispatch_witness :
    complete nVarW envW = ("variable", some ⟨1, 2, [⟨"pid"⟩]⟩, none) :=
  ((complete_dispatch nVarW envW).2.1 [] "variable" complVariable
    [("index", complIndex), ("command name", complFormHead),
     ("redir", complRedir), ("argument", complArg)]
    rfl (by intro p hp; simp at hp)).1 ⟨1, 2, [⟨"pid"⟩]⟩ none (by decide)

/-! ## C4: multi-level indexing is not applicable -/

theorem findIndexContext_multilevel (n : Node) (ind : Node)
    (h1 : enclosingIndexing n = some ind) (h2 : 2 ≤ ind.nIndices) :
    findIndexContext n = (-1, -1, "", PrimaryType.badPrimary, none) := by
  by_cases hsep : n.tag = NodeTag.sep
  · have hnp : ¬ n.tag = NodeTag.primary := by simp [hsep]
    rcases hpar : n.parent with _ | p
    · simp [enclosingIndexing, hsep, hpar] at h1
    · by_cases hind : p.tag = NodeTag.indexing
      · have hip : ind = p := by
          simp [enclosingIndexing, hsep, hpar, hind] at h1
          exact h1.symm
        have hni : ¬ p.nIndices = 1 := by
          subst hip
          omega
        simp [findIndexContext, hsep, hpar, hind, hni, hnp]
      · by_cases harr : p.tag = NodeTag.array
        · rcases hpp : p.parent with _ | i2
          · simp [enclosingIndexing, hsep, hpar, hind, harr, hpp] at h1
          · by_cases hi2 : i2.tag = NodeTag.indexing
            · have hieq : ind = i2 := by
                simp [enclosingIndexing, hsep, hpar, hind, harr, hpp, hi2] at h1
                exact h1.symm
              have hni : ¬ i2.nIndices = 1 := by
                subst hieq
                omega
              simp [findIndexContext, hsep, hpar, hind, harr, hpp, hi2, hni, hnp]
            · simp [enclosingIndexing, hsep, hpar, hind, harr, hpp, hi2] at h1
        · simp [enclosingIndexing, hsep, hpar, hind, harr] at h1
  · by_cases hprim : n.tag = NodeTag.primary
    · rcases hpc : primaryInSimpleCompound n with ⟨oc, cur⟩
      rcases oc with _ | c
      · simp [enclosingIndexing, hsep, hprim, hpc] at h1
      · rcases hcp : c.parent with _ | arr
        · simp [enclosingIndexing, hsep, hprim, hpc, hcp] at h1
        · by_cases harr : arr.tag = NodeTag.array
          · rcases hap : arr.parent with _ | i2
            · simp [enclosingIndexing, hsep, hprim, hpc, hcp, harr, hap] at h1
            · by_cases hi2 : i2.tag = NodeTag.indexing
              · have hieq : ind = i2 := by
                  simp [enclosingIndexing, hsep, hprim, hpc, hcp, harr, hap, hi2] at h1
                  exact h1.symm
                have hni : ¬ i2.nIndices = 1 := by
                  subst hieq
                  omega
                simp [findIndexContext, hsep, hprim, hpc, hcp, harr, hap, hi2, hni]
              · simp [enclosingIndexing, hsep, hprim, hpc, hcp, harr, hap, hi2] at h1
          · simp [enclosingIndexing, hsep, hprim, hpc, hcp, harr] at h1
    · simp [enclosingIndexing, hsep, hprim] at h1

/-- C4: when the indexing node the index detector consults carries two or
more indices (the `$a[x][y]` shape), the index completer returns the
not-applicable sentinel regardless of the indexee's value. -/
theorem complIndex_multilevel_notApplicable (n : Node) (ev : Env) (ind : Node)
    (h1 : enclosingIndexing n = some ind) (h2 : 2 ≤ ind.nIndices) :
    complIndex n ev = (none, some CErr.unapplicable) := by
  have hf := findIndexContext_multilevel n ind h1 h2
  simp [complIndex, hf]

/-- The head `a` of `$a[x][y]` and the separator sitting inside the second
index, whose parent indexing node carries two indices. -/
def nHeadW : Node := .mk 2 0 2 .primary .bareword "a" none [] 0 none none

/-- A separator under an indexing node with two indices. -/
def nSepMulti : Node := .mk 3 7 8 .sep .badPrimary "" none [] 0 none
  (some (.mk 4 0 8 .indexing .badPrimary "" (some nHeadW) [] 2 none none))

/-- Witness for C4 at the two-index shape. -/
theorem complIndex_multilevel_notApplicable_witness :
    complIndex nSepMulti envW = (none, some CErr.unapplicable) :=
  complIndex_multilevel_notApplicable nSepMulti envW
    (.mk 4 0 8 .indexing .badPrimary "" (some nHeadW) [] 2 none none)
    rfl (by decide)

/-! ## C3: semantic failures of the index detector -/

/-- C3: once the index detector has structurally recognized an index
context (and the variable detector has declined), a pure evaluation of the
indexee yielding no value produces `cannot evaluate indexee`, and a value
that does not support key iteration produces `indexee does not support
iterating keys`; both are distinct from each other and from the sentinel,
and the dispatcher stops and surfaces them instead of falling through. -/
theorem complIndex_semantic_failures (n : Node) (ev : Env)
    (b e2 : Int) (cur : String) (q : PrimaryType) (ixe : Option Node)
    (hf : findIndexContext n = (b, e2, cur, q, ixe)) (hb : b ≠ -1)
    (hv : complVariable n ev = (none, some CErr.unapplicable)) :
    (errCannotEvalIndexee ≠ CErr.unapplicable ∧
     errCannotIterateKey ≠ CErr.unapplicable ∧
     errCannotEvalIndexee ≠ errCannotIterateKey) ∧
    (ev.purelyEvalPrimary ixe = none →
      complIndex n ev = (none, some errCannotEvalIndexee) ∧
      complete n ev = ("index", none, some errCannotEvalIndexee)) ∧
    (∀ v, ev.purelyEvalPrimary ixe = some v → v.iterateKeyer = none →
      complIndex n ev = (none, some errCannotIterateKey) ∧
      complete n ev = ("index", none, some errCannotIterateKey)) := by
  refine ⟨by refine ⟨?_, ?_, ?_⟩ <;> decide, ?_, ?_⟩
  · intro hep
    have hci : complIndex n ev = (none, some errCannotEvalIndexee) := by
      simp [complIndex, hf, hb, hep]
    refine ⟨hci, ?_⟩
    rw [complete, completers,
      completeList_cons_decline "variable" complVariable _ n ev hv,
      completeList_cons_error "index" complIndex _ n ev errCannotEvalIndexee hci
        (by decide)]
  · intro v hep hik
    have hci : complIndex n ev = (none, some errCannotIterateKey) := by
      simp [complIndex, hf, hb, hep, hik]
    refine ⟨hci, ?_⟩
    rw [complete, completers,
      completeList_cons_decline "variable" complVariable _ n ev hv,
      completeList_cons_error "index" complIndex _ n ev errCannotIterateKey hci
        (by decide)]

/-- A separator just after the opening bracket of `$a[`, under an indexing
node with exactly one index. -/
def nSepIdx : Node := .mk 3 3 4 .sep .badPrimary "" none [] 0 none
  (some (.mk 4 0 4 .indexing .badPrimary "" (some nHeadW) [] 1 none none))

/-- Witness for C3: with a pure evaluator producing no value, the
dispatcher surfaces `cannot evaluate indexee` from the index detector. -/
theorem complIndex_semantic_failures_witness :
    complIndex nSepIdx envW = (none, some errCannotEvalIndexee) ∧
    complete nSepIdx envW = ("index", none, some errCannotEvalIndexee) :=
  (complIndex_semantic_failures nSepIdx envW 4 4 "" PrimaryType.bareword
    (some nHeadW) rfl (by decide) (by decide)).2.1 rfl

/-! ## The filename candidate producer -/

theorem complFilenameInner_ok (fs : Fs) (head : String)
    (executableOnly : Bool) (infos : List FileInfo)
    (hr : fs.readDir (dirToReadOf head) = .ok infos) :
    complFilenameInner fs head executableOnly =
      .ok ((infos.filter (fun info =>
          (dotfile (pathSplit head).2 == dotfile info.name) &&
          (!executableOnly || (info.isDir || info.mode &&& 0o111 != 0)))).map
        (fileComplCandidate fs (pathSplit head).1)) := by
  simp [complFilenameInner, hr]

theorem fileSuffix_spec (fs : Fs) (full : String) (info : FileInfo) :
    (fileSuffix fs full info = "/" ↔
      (info.isDir = true ∨ (info.isSymlink = true ∧
        ∃ st, fs.stat full = some st ∧ st.isDir = true))) ∧
    (fileSuffix fs full info = "/" ∨ fileSuffix fs full info = " ") := by
  unfold fileSuffix
  by_cases hd : info.isDir = true
  · simp [hd]
  · by_cases hs : info.isSymlink = true
    · rcases hst : fs.stat full with _ | st
      · simp [hd, hs, hst]
      · by_cases hsd : st.isDir = true
        · simp [hd, hs, hst, hsd]
        · simp [hd, hs, hst, hsd]
    · simp [hd, hs]

/-- C8: when listing the directory fails, the filename candidate producer
returns an error whose message embeds the offending directory (the
directory component of the partial path, or `.` when that is empty) and
ends with the underlying error verbatim; the error is not the
not-applicable sentinel, and the redirection completer surfaces it. -/
theorem complFilenameInner_readDir_error (fs : Fs) (head : String)
    (executableOnly : Bool) (e : String)
    (hr : fs.readDir (dirToReadOf head) = .error e) :
    ∃ m, complFilenameInner fs head executableOnly = .error (CErr.msg m) ∧
      (∃ pre post, m = pre ++ dirToReadOf head ++ post) ∧
      (∃ pre, m = pre ++ e) ∧
      CErr.msg m ≠ CErr.unapplicable ∧
      (∀ n ev b e2 cur q, ev.fs = fs →
        findRedirContext n = (b, e2, cur, q) → b ≠ -1 → cur = head →
        complRedir n ev = (none, some (CErr.msg m))) := by
  refine ⟨"cannot list directory " ++ dirToReadOf head ++ ": " ++ e,
    ?_, ⟨"cannot list directory ", ": " ++ e, String.append_assoc _ _ _⟩,
    ⟨"cannot list directory " ++ dirToReadOf head ++ ": ", rfl⟩, by simp, ?_⟩
  · simp [complFilenameInner, hr]
  · intro n ev b e2 cur q hevfs hfr hb hcur
    have hcf : complFilenameInner ev.fs cur false =
        .error (CErr.msg ("cannot list directory " ++ dirToReadOf head ++ ": " ++ e)) := by
      rw [hevfs, hcur]
      simp [complFilenameInner, hr]
    simp [complRedir, hfr, hb, hcf]

/-- A filesystem on which every directory listing fails with `boom`. -/
def fsBoom : Fs :=
  { readDir := fun _ => Except.error "boom",
    stat := fun _ => none,
    lsStyle := fun _ => "" }

/-- Witness for C8 at a concrete failing filesystem and partial path. -/
theorem complFilenameInner_readDir_error_witness :
    ∃ m, complFilenameInner fsBoom "sub/x" false = .error (CErr.msg m) ∧
      (∃ pre post, m = pre ++ dirToReadOf "sub/x" ++ post) ∧
      (∃ pre, m = pre ++ "boom") ∧
      CErr.msg m ≠ CErr.unapplicable ∧
      (∀ n ev b e2 cur q, ev.fs = fsBoom →
        findRedirContext n = (b, e2, cur, q) → b ≠ -1 → cur = "sub/x" →
        complRedir n ev = (none, some (CErr.msg m))) :=
  complFilenameInner_readDir_error fsBoom "sub/x" false "boom" rfl

/-- C6: a directory entry is retained exactly when its hidden status (a
leading dot) equals the hidden status of the file-prefix component of the
partial path, and, when executable filtering is on, the entry is a
directory or carries an execute permission bit. -/
theorem complFilenameInner_hidden_filter (fs : Fs) (head : String)
    (executableOnly : Bool) (infos : List FileInfo)
    (hr : fs.readDir (dirToReadOf head) = .ok infos) :
    ∃ cands, complFilenameInner fs head executableOnly = .ok cands ∧
      (∀ c ∈ cands, ∃ info, info ∈ infos ∧
        c = fileComplCandidate fs (pathSplit head).1 info ∧
        dotfile info.name = dotfile (pathSplit head).2 ∧
        (executableOnly = true → (info.isDir = true ∨ info.mode &&& 0o111 ≠ 0))) ∧
      (∀ info ∈ infos, dotfile info.name = dotfile (pathSplit head).2 →
        (executableOnly = true → (info.isDir = true ∨ info.mode &&& 0o111 ≠ 0)) →
        fileComplCandidate fs (pathSplit head).1 info ∈ cands) := by
  refine ⟨_, complFilenameInner_ok fs head executableOnly infos hr, ?_, ?_⟩
  · intro c hc
    obtain ⟨info, hmem, hceq⟩ := List.mem_map.mp hc
    obtain ⟨hin, hpred⟩ := List.mem_filter.mp hmem
    simp only [Bool.and_eq_true, Bool.or_eq_true, beq_iff_eq, Bool.not_eq_eq_eq_not,
      Bool.not_true, bne_iff_ne, ne_eq] at hpred
    refine ⟨info, hin, hceq.symm, hpred.1.symm, ?_⟩
    intro hex
    rcases hpred.2 with h1 | h2
    · rw [hex] at h1
      simp at h1
    · rcases h2 with h2 | h2
      · exact Or.inl h2
      · exact Or.inr (by simpa using h2)
  · intro info hin hdot hex
    refine List.mem_map.mpr ⟨info, List.mem_filter.mpr ⟨hin, ?_⟩, rfl⟩
    simp only [Bool.and_eq_true, Bool.or_eq_true, beq_iff_eq]
    refine ⟨hdot.symm, ?_⟩
    by_cases he : executableOnly = true
    · rcases hex he with h | h
      · exact Or.inr (Or.inl h)
      · refine Or.inr (Or.inr ?_)
        simpa using h
    · left
      simp only [Bool.not_eq_true] at he
      simp [he]

/-- Witness for C6 on a directory `{.git, file.txt, run.sh}` with the
empty (non-hidden) file prefix: `.git` is filtered out. -/
theorem complFilenameInner_hidden_filter_witness :
    ∃ cands, complFilenameInner fsW "" false = .ok cands ∧
      (∀ c ∈ cands, ∃ info,
        info ∈ [(⟨".git", true, 0o755, false⟩ : FileInfo),
          ⟨"file.txt", false, 0o644, false⟩, ⟨"run.sh", false, 0o755, false⟩] ∧
        c = fileComplCandidate fsW (pathSplit "").1 info ∧
        dotfile info.name = dotfile (pathSplit "").2 ∧
        (false = true → (info.isDir = true ∨ info.mode &&& 0o111 ≠ 0))) ∧
      (∀ info ∈ [(⟨".git", true, 0o755, false⟩ : FileInfo),
          ⟨"file.txt", false, 0o644, false⟩, ⟨"run.sh", false, 0o755, false⟩],
        dotfile info.name = dotfile (pathSplit "").2 →
        (false = true → (info.isDir = true ∨ info.mode &&& 0o111 ≠ 0)) →
        fileComplCandidate fsW (pathSplit "").1 info ∈ cands) :=
  complFilenameInner_hidden_filter fsW "" false
    [⟨".git", true, 0o755, false⟩, ⟨"file.txt", false, 0o644, false⟩,
     ⟨"run.sh", false, 0o755, false⟩] rfl

/-- C7: every retained entry carries code suffix `/` exactly when it is a
directory or a symlink resolving (following links) to a directory, and the
single space in every other case. -/
theorem complFilenameInner_suffix (fs : Fs) (head : String)
    (executableOnly : Bool) (infos : List FileInfo)
    (hr : fs.readDir (dirToReadOf head) = .ok infos) :
    ∃ cands, complFilenameInner fs head executableOnly = .ok cands ∧
      ∀ c ∈ cands, ∃ info, info ∈ infos ∧
        c = RawCandidate.complex ((pathSplit head).1 ++ info.name)
          (fileSuffix fs ((pathSplit head).1 ++ info.name) info)
          (fs.lsStyle ((pathSplit head).1 ++ info.name)) ∧
        (fileSuffix fs ((pathSplit head).1 ++ info.name) info = "/" ↔
          (info.isDir = true ∨ (info.isSymlink = true ∧
            ∃ st, fs.stat ((pathSplit head).1 ++ info.name) = some st ∧
              st.isDir = true))) ∧
        (fileSuffix fs ((pathSplit head).1 ++ info.name) info = "/" ∨
         fileSuffix fs ((pathSplit head).1 ++ info.name) info = " ") := by
  refine ⟨_, complFilenameInner_ok fs head executableOnly infos hr, ?_⟩
  intro c hc
  obtain ⟨info, hmem, hceq⟩ := List.mem_map.mp hc
  obtain ⟨hin, -⟩ := List.mem_filter.mp hmem
  exact ⟨info, hin, hceq.symm,
    (fileSuffix_spec fs ((pathSplit head).1 ++ info.name) info).1,
    (fileSuffix_spec fs ((pathSplit head).1 ++ info.name) info).2⟩

/-- Witness for C7 on the same concrete directory. -/
theorem complFilenameInner_suffix_witness :
    ∃ cands, complFilenameInner fsW "" false = .ok cands ∧
      ∀ c ∈ cands, ∃ info,
        info ∈ [(⟨".git", true, 0o755, false⟩ : FileInfo),
          ⟨"file.txt", false, 0o644, false⟩, ⟨"run.sh", false, 0o755, false⟩] ∧
        c = RawCandidate.complex ((pathSplit "").1 ++ info.name)
          (fileSuffix fsW ((pathSplit "").1 ++ info.name) info)
          (fsW.lsStyle ((pathSplit "").1 ++ info.name)) ∧
        (fileSuffix fsW ((pathSplit "").1 ++ info.name) info = "/" ↔
          (info.isDir = true ∨ (info.isSymlink = true ∧
            ∃ st, fsW.stat ((pathSplit "").1 ++ info.name) = some st ∧
              st.isDir = true))) ∧
        (fileSuffix fsW ((pathSplit "").1 ++ info.name) info = "/" ∨
         fileSuffix fsW ((pathSplit "").1 ++ info.name) info = " ") :=
  complFilenameInner_suffix fsW "" false
    [⟨".git", true, 0o755, false⟩, ⟨"file.txt", false, 0o644, false⟩,
     ⟨"run.sh", false, 0o755, false⟩] rfl

/-- C5: when the partial command-head text must be taken literally
(`dontSearch`), the command-head detector's raw candidates are exactly the
filename producer's with executable filtering enabled, so every candidate
stems from a directory entry that is a directory or carries an execute
permission bit; no keyword-, variable- or namespace-derived candidate is
produced. -/
theorem complFormHeadInner_literal (head : String) (ev : Env)
    (infos : List FileInfo) (h : dontSearch head = true)
    (hr : ev.fs.readDir (dirToReadOf head) = .ok infos) :
    complFormHeadInner head ev = complFilenameInner ev.fs head true ∧
    ∃ cands, complFilenameInner ev.fs head true = .ok cands ∧
      ∀ c ∈ cands, ∃ info, info ∈ infos ∧
        (info.isDir = true ∨ info.mode &&& 0o111 ≠ 0) ∧
        c = fileComplCandidate ev.fs (pathSplit head).1 info := by
  refine ⟨by simp [complFormHeadInner, h], ?_⟩
  refine ⟨_, complFilenameInner_ok ev.fs head true infos hr, ?_⟩
  intro c hc
  obtain ⟨info, hmem, hceq⟩ := List.mem_map.mp hc
  obtain ⟨hin, hpred⟩ := List.mem_filter.mp hmem
  simp only [Bool.and_eq_true, Bool.not_true, Bool.false_or, Bool.or_eq_true,
    beq_iff_eq, bne_iff_ne, ne_eq] at hpred
  refine ⟨info, hin, ?_, hceq.symm⟩
  rcases hpred.2 with h1 | h2
  · exact Or.inl h1
  · exact Or.inr (by simpa using h2)

/-- Witness for C5 on the literal parent-directory head `..` over the
concrete current directory. -/
theorem complFormHeadInner_literal_witness :
    complFormHeadInner ".." envW = complFilenameInner envW.fs ".." true ∧
    ∃ cands, complFilenameInner envW.fs ".." true = .ok cands ∧
      ∀ c ∈ cands, ∃ info,
        info ∈ [(⟨".git", true, 0o755, false⟩ : FileInfo),
          ⟨"file.txt", false, 0o644, false⟩, ⟨"run.sh", false, 0o755, false⟩] ∧
        (info.isDir = true ∨ info.mode &&& 0o111 ≠ 0) ∧
        c = fileComplCandidate envW.fs (pathSplit "..").1 info :=
  complFormHeadInner_literal ".." envW
    [⟨".git", true, 0o755, false⟩, ⟨"file.txt", false, 0o644, false⟩,
     ⟨"run.sh", false, 0o755, false⟩] rfl rfl

/-! ## C2: the variable detector's pre-filter candidate list -/

theorem strData_append (a b : String) : (a ++ b).data = a.data ++ b.data := rfl

theorem strDrop_modNs_getLast (mod nsPart : String)
    (h : hasProperPrefix (mod ++ ":") nsPart = true) :
    (strDrop (mod ++ ":") nsPart.length).data.getLast? = some ':' := by
  have hlen : nsPart.length ≤ mod.data.length := by
    unfold hasProperPrefix at h
    simp only [Bool.and_eq_true, decide_eq_true_eq, gt_iff_lt] at h
    have := h.1
    have hl : (mod ++ ":").length = mod.data.length + 1 := by
      show (mod ++ ":").data.length = mod.data.length + 1
      rw [strData_append]
      simp
    omega
  show ((mod ++ ":").data.drop nsPart.length).getLast? = some ':'
  rw [strData_append, List.drop_append_of_le_length hlen]
  exact List.getLast?_concat _

/-- C2: for the typed namespace qualifier, the variable detector's
pre-filter candidate list is sorted lexicographically, and a name belongs
to it exactly when it is a variable name visible in the namespace (empty
namespace: builtin and global names; the reserved `E` namespace:
environment variable names; any other namespace: the names exported by the
module bound to it, an empty set when there is none) or the remainder —
carrying its trailing `:` separator — of a known module qualifier that
properly extends the typed qualifier. -/
theorem complVariableEntries_spec (ev : Env) (ns nsPart : String)
    (hns : ns = if nsPart.length > 0 then strDropLast nsPart else nsPart) :
    List.Sorted StrLeR (complVariableEntries ev ns nsPart) ∧
    (∀ s, s ∈ complVariableEntries ev ns nsPart ↔
      ((if ns = "" then s ∈ ev.builtin ∨ s ∈ ev.global
        else if ns = "E" then ∃ kv ∈ ev.environ, s = envKey kv
        else ∃ exports, ev.modules.lookup ns = some exports ∧ s ∈ exports) ∨
       (∃ mod ∈ ev.modules.map Prod.fst,
         hasProperPrefix (mod ++ ":") nsPart = true ∧
         s = strDrop (mod ++ ":") nsPart.length ∧
         s.data.getLast? = some ':'))) := by
  clear hns
  constructor
  · exact List.sorted_insertionSort StrLeR _
  · intro s
    unfold complVariableEntries
    rw [List.mem_insertionSort, List.mem_append]
    refine or_congr ?_ ?_
    · unfold iterateVariablesList
      by_cases h0 : ns = ""
      · simp [h0]
      · by_cases hE : ns = "E"
        · simp [h0, hE, List.mem_map, eq_comm]
        · simp only [h0, hE, if_false]
          rcases hlk : ev.modules.lookup ns with _ | exports
          · simp
          · simp [Option.getD]
    · rw [List.mem_filterMap]
      constructor
      · rintro ⟨mod, hmod, hf⟩
        by_cases hpp : hasProperPrefix (mod ++ ":") nsPart = true
        · rw [if_pos hpp] at hf
          obtain rfl := Option.some.inj hf
          exact ⟨mod, hmod, hpp, rfl, strDrop_modNs_getLast mod nsPart hpp⟩
        · rw [if_neg hpp] at hf
          cases hf
      · rintro ⟨mod, hmod, hpp, rfl, -⟩
        exact ⟨mod, hmod, by rw [if_pos hpp]⟩

/-- Witness for C2 at a concrete environment and empty qualifier. -/
theorem complVariableEntries_spec_witness :
    List.Sorted StrLeR (complVariableEntries envW "" "") ∧
    (∀ s, s ∈ complVariableEntries envW "" "" ↔
      ((if "" = "" then s ∈ envW.builtin ∨ s ∈ envW.global
        else if "" = "E" then ∃ kv ∈ envW.environ, s = envKey kv
        else ∃ exports, envW.modules.lookup "" = some exports ∧ s ∈ exports) ∨
       (∃ mod ∈ envW.modules.map Prod.fst,
         hasProperPrefix (mod ++ ":") "" = true ∧
         s = strDrop (mod ++ ":") "".length ∧
         s.data.getLast? = some ':'))) :=
  complVariableEntries_spec envW "" "" rfl

/-! ## C9: span invariants of the produced complSpecs -/

/-- Well-formedness of a node's offsets against the length `L` of the
source text being completed: `begin <= end <= L`, and a variable-reference
primary spans its `$` sigil plus its source value. -/
def WfNode (L : Nat) (m : Node) : Prop :=
  m.nbegin ≤ m.nend ∧ m.nend ≤ L ∧
  (m.tag = NodeTag.primary → m.ptype = PrimaryType.variable →
    m.nend = m.nbegin + 1 + m.pval.length)

/-- Well-formedness of the leaf node and its parent. -/
def WfAt (L : Nat) (n : Node) : Prop :=
  WfNode L n ∧ ∀ p, n.parent = some p → WfNode L p

/-- A span produced by a context finder is either the leaf's end position
twice (completion at a fresh position) or the enclosing compound's span. -/
def SpanShape (n : Node) (b e2 : Int) : Prop :=
  (b = (n.nend : Int) ∧ e2 = (n.nend : Int)) ∨
  (∃ c, n.parent = some c ∧ b = (c.nbegin : Int) ∧ e2 = (c.nend : Int))

theorem spanBounds (L : Nat) (n : Node) (b e2 : Int) (hw : WfAt L n)
    (h : SpanShape n b e2) : 0 ≤ b ∧ b ≤ e2 ∧ e2 ≤ (L : Int) := by
  obtain ⟨⟨-, h2, -⟩, hp⟩ := hw
  rcases h with ⟨rfl, rfl⟩ | ⟨c, hc, rfl, rfl⟩
  · exact ⟨by exact_mod_cast Nat.zero_le _, le_refl _, by exact_mod_cast h2⟩
  · obtain ⟨hc1, hc2, -⟩ := hp c hc
    exact ⟨by exact_mod_cast Nat.zero_le _, by exact_mod_cast hc1,
      by exact_mod_cast hc2⟩

theorem primaryInSimpleCompound_parent (pn c : Node) (cur : String)
    (h : primaryInSimpleCompound pn = (some c, cur)) : pn.parent = some c := by
  unfold primaryInSimpleCompound at h
  rcases hp : pn.parent with _ | par
  · rw [hp] at h
    simp at h
  · rw [hp] at h
    dsimp only at h
    split at h
    · simp only [Prod.mk.injEq, Option.some.injEq] at h
      rw [h.1]
    · simp at h

theorem findFormHeadContext_spans (n : Node) (b e2 : Int) (hd : String)
    (q : PrimaryType) (hf : findFormHeadContext n = (b, e2, hd, q))
    (hb : b ≠ -1) : SpanShape n b e2 := by
  rcases hpisc : primaryInSimpleCompound n with ⟨oc, cur⟩
  unfold findFormHeadContext at hf
  rw [hpisc] at hf
  split at hf
  · simp only [Prod.mk.injEq] at hf
    obtain ⟨rfl, rfl, -, -⟩ := hf
    exact Or.inl ⟨rfl, rfl⟩
  · split at hf
    · simp only [Prod.mk.injEq] at hf
      obtain ⟨rfl, rfl, -, -⟩ := hf
      exact Or.inl ⟨rfl, rfl⟩
    · split at hf
      · rcases oc with _ | compound
        · dsimp only at hf
          simp only [Prod.mk.injEq] at hf
          obtain ⟨rfl, -, -, -⟩ := hf
          exact absurd rfl hb
        · dsimp only at hf
          rcases hcp : compound.parent with _ | f
          · rw [hcp] at hf
            simp only [Prod.mk.injEq] at hf
            obtain ⟨rfl, -, -, -⟩ := hf
            exact absurd rfl hb
          · rw [hcp] at hf
            dsimp only at hf
            split at hf
            · simp only [Prod.mk.injEq] at hf
              obtain ⟨rfl, rfl, -, -⟩ := hf
              exact Or.inr ⟨compound,
                primaryInSimpleCompound_parent n compound cur hpisc, rfl, rfl⟩
            · simp only [Prod.mk.injEq] at hf
              obtain ⟨rfl, -, -, -⟩ := hf
              exact absurd rfl hb
      · simp only [Prod.mk.injEq] at hf
        obtain ⟨rfl, -, -, -⟩ := hf
        exact absurd rfl hb

theorem findRedirContext_spans (n : Node) (b e2 : Int) (hd : String)
    (q : PrimaryType) (hf : findRedirContext n = (b, e2, hd, q))
    (hb : b ≠ -1) : SpanShape n b e2 := by
  rcases hpisc : primaryInSimpleCompound n with ⟨oc, cur⟩
  unfold findRedirContext at hf
  rw [hpisc] at hf
  split at hf
  · simp only [Prod.mk.injEq] at hf
    obtain ⟨rfl, rfl, -, -⟩ := hf
    exact Or.inl ⟨rfl, rfl⟩
  · split at hf
    · rcases oc with _ | compound
      · dsimp only at hf
        simp only [Prod.mk.injEq] at hf
        obtain ⟨rfl, -, -, -⟩ := hf
        exact absurd rfl hb
      · dsimp only at hf
        split at hf
        · simp only [Prod.mk.injEq] at hf
          obtain ⟨rfl, rfl, -, -⟩ := hf
          exact Or.inr ⟨compound,
            primaryInSimpleCompound_parent n compound cur hpisc, rfl, rfl⟩
        · simp only [Prod.mk.injEq] at hf
          obtain ⟨rfl, -, -, -⟩ := hf
          exact absurd rfl hb
    · simp only [Prod.mk.injEq] at hf
      obtain ⟨rfl, -, -, -⟩ := hf
      exact absurd rfl hb

theorem findArgContext_spans (n : Node) (b e2 : Int) (hd : String)
    (q : PrimaryType) (of : Option Node)
    (hf : findArgContext n = (b, e2, hd, q, of)) (hb : b ≠ -1) :
    SpanShape n b e2 := by
  rcases hpisc : primaryInSimpleCompound n with ⟨oc, cur⟩
  unfold findArgContext at hf
  rw [hpisc] at hf
  split at hf
  · rcases hp : n.parent with _ | f
    · rw [hp] at hf
      simp only [Prod.mk.injEq] at hf
      obtain ⟨rfl, -, -, -, -⟩ := hf
      exact absurd rfl hb
    · rw [hp] at hf
      dsimp only at hf
      split at hf
      · simp only [Prod.mk.injEq] at hf
        obtain ⟨rfl, rfl, -, -, -⟩ := hf
        exact Or.inl ⟨rfl, rfl⟩
      · simp only [Prod.mk.injEq] at hf
        obtain ⟨rfl, -, -, -, -⟩ := hf
        exact absurd rfl hb
  · split at hf
    · rcases oc with _ | compound
      · dsimp only at hf
        simp only [Prod.mk.injEq] at hf
        obtain ⟨rfl, -, -, -, -⟩ := hf
        exact absurd rfl hb
      · dsimp only at hf
        rcases hcp : compound.parent with _ | f
        · rw [hcp] at hf
          simp only [Prod.mk.injEq] at hf
          obtain ⟨rfl, -, -, -, -⟩ := hf
          exact absurd rfl hb
        · rw [hcp] at hf
          dsimp only at hf
          split at hf
          · simp only [Prod.mk.injEq] at hf
            obtain ⟨rfl, rfl, -, -, -⟩ := hf
            exact Or.inr ⟨compound,
              primaryInSimpleCompound_parent n compound cur hpisc, rfl, rfl⟩
          · simp only [Prod.mk.injEq] at hf
            obtain ⟨rfl, -, -, -, -⟩ := hf
            exact absurd rfl hb
    · simp only [Prod.mk.injEq] at hf
      obtain ⟨rfl, -, -, -, -⟩ := hf
      exact absurd rfl hb

theorem findIndexContext_spans (n : Node) (b e2 : Int) (cur2 : String)
    (q : PrimaryType) (ixe : Option Node)
    (hf : findIndexContext n = (b, e2, cur2, q, ixe)) (hb : b ≠ -1) :
    SpanShape n b e2 := by
  rcases hpisc : primaryInSimpleCompound n with ⟨oc, cur⟩
  unfold findIndexContext at hf
  rw [hpisc] at hf
  split at hf
  · rcases hp : n.parent with _ | p
    · rw [hp] at hf
      simp only [Prod.mk.injEq] at hf
      obtain ⟨rfl, -, -, -, -⟩ := hf
      exact absurd rfl hb
    · rw [hp] at hf
      dsimp only at hf
      split at hf
      · split at hf
        · simp only [Prod.mk.injEq] at hf
          obtain ⟨rfl, rfl, -, -, -⟩ := hf
          exact Or.inl ⟨rfl, rfl⟩
        · simp only [Prod.mk.injEq] at hf
          obtain ⟨rfl, -, -, -, -⟩ := hf
          exact absurd rfl hb
      · split at hf
        · rcases hpp : p.parent with _ | ind
          · rw [hpp] at hf
            simp only [Prod.mk.injEq] at hf
            obtain ⟨rfl, -, -, -, -⟩ := hf
            exact absurd rfl hb
          · rw [hpp] at hf
            dsimp only at hf
            split at hf
            · simp only [Prod.mk.injEq] at hf
              obtain ⟨rfl, rfl, -, -, -⟩ := hf
              exact Or.inl ⟨rfl, rfl⟩
            · simp only [Prod.mk.injEq] at hf
              obtain ⟨rfl, -, -, -, -⟩ := hf
              exact absurd rfl hb
        · simp only [Prod.mk.injEq] at hf
          obtain ⟨rfl, -, -, -, -⟩ := hf
          exact absurd rfl hb
  · split at hf
    · rcases oc with _ | compound
      · dsimp only at hf
        simp only [Prod.mk.injEq] at hf
        obtain ⟨rfl, -, -, -, -⟩ := hf
        exact absurd rfl hb
      · dsimp only at hf
        rcases hcp : compound.parent with _ | arr
        · rw [hcp] at hf
          simp only [Prod.mk.injEq] at hf
          obtain ⟨rfl, -, -, -, -⟩ := hf
          exact absurd rfl hb
        · rw [hcp] at hf
          dsimp only at hf
          split at hf
          · rcases hap : arr.parent with _ | ind
            · rw [hap] at hf
              simp only [Prod.mk.injEq] at hf
              obtain ⟨rfl, -, -, -, -⟩ := hf
              exact absurd rfl hb
            · rw [hap] at hf
              dsimp only at hf
              split at hf
              · simp only [Prod.mk.injEq] at hf
                obtain ⟨rfl, rfl, -, -, -⟩ := hf
                exact Or.inr ⟨compound,
                  primaryInSimpleCompound_parent n compound cur hpisc, rfl, rfl⟩
              · simp only [Prod.mk.injEq] at hf
                obtain ⟨rfl, -, -, -, -⟩ := hf
                exact absurd rfl hb
          · simp only [Prod.mk.injEq] at hf
            obtain ⟨rfl, -, -, -, -⟩ := hf
            exact absurd rfl hb
    · simp only [Prod.mk.injEq] at hf
      obtain ⟨rfl, -, -, -, -⟩ := hf
      exact absurd rfl hb

theorem parseVariableSplice_length (v : String) :
    (parseVariableSplice v).1.length + (parseVariableSplice v).2.length =
      v.length := by
  unfold parseVariableSplice
  by_cases h : strHasPrefix v "@" = true
  · rw [if_pos h]
    have hv : 1 ≤ v.data.length := by
      unfold strHasPrefix at h
      have hpre : "@".data <+: v.data := by
        simpa using h
      simpa using hpre.length_le
    dsimp only
    show ("@" : String).length + (String.mk (v.data.drop 1)).length = v.length
    have h1 : ("@" : String).length = 1 := rfl
    have h2 : (String.mk (v.data.drop 1)).length = v.data.length - 1 :=
      List.length_drop 1 v.data
    rw [h1, h2]
    show 1 + (v.data.length - 1) = v.data.length
    omega
  · rw [if_neg h]
    dsimp only
    show ("" : String).length + v.length = v.length
    have h0 : ("" : String).length = 0 := rfl
    omega

theorem parseVariableQName_ns_le (q : String) :
    (parseVariableQName q).1.length ≤ q.length := by
  unfold parseVariableQName
  rcases h : lastIdxOf q.data ':' with _ | i
  · dsimp only
    show ("" : String).length ≤ q.length
    have h0 : ("" : String).length = 0 := rfl
    omega
  · dsimp only
    show (String.mk (q.data.take (i + 1))).length ≤ q.length
    show (q.data.take (i + 1)).length ≤ q.data.length
    rw [List.length_take]
    omega

theorem span_complVariable (L : Nat) (n : Node) (ev : Env) (hw : WfAt L n)
    (spec : ComplSpec) (err : Option CErr)
    (h : complVariable n ev = (some spec, err)) :
    0 ≤ spec.begin_ ∧ spec.begin_ ≤ spec.end_ ∧ spec.end_ ≤ (L : Int) := by
  unfold complVariable at h
  rcases hgp : getPrimary n with _ | ⟨t, value⟩
  · rw [hgp] at h
    simp at h
  · rw [hgp] at h
    dsimp only at h
    by_cases ht : t = PrimaryType.variable
    · rw [if_neg (by simp [ht])] at h
      rcases hsp : parseVariableSplice value with ⟨ex, qn⟩
      rw [hsp] at h
      dsimp only at h
      rcases hqn : parseVariableQName qn with ⟨nsp, nh⟩
      rw [hqn] at h
      dsimp only at h
      split at h
      · simp at h
      · simp only [Prod.mk.injEq, Option.some.injEq] at h
        obtain ⟨rfl, -⟩ := h
        have htag : n.tag = NodeTag.primary ∧ t = n.ptype ∧ value = n.pval := by
          unfold getPrimary at hgp
          split at hgp
          · simp only [Option.some.injEq, Prod.mk.injEq] at hgp
            exact ⟨by assumption, hgp.1.symm, hgp.2.symm⟩
          · cases hgp
        obtain ⟨hw1, hw2, hw3⟩ := hw.1
        have hvl : n.nend = n.nbegin + 1 + n.pval.length :=
          hw3 htag.1 (htag.2.1 ▸ ht)
        have hex : ex.length + qn.length = value.length := by
          have := parseVariableSplice_length value
          rw [hsp] at this
          exact this
        have hnsp : nsp.length ≤ qn.length := by
          have := parseVariableQName_ns_le qn
          rw [hqn] at this
          exact this
        have hlen : n.nbegin + 1 + ex.length + nsp.length ≤ n.nend := by
          rw [hvl, ← htag.2.2]
          omega
        dsimp only
        refine ⟨by exact_mod_cast Nat.zero_le _, ?_, ?_⟩
        · exact_mod_cast hlen
        · exact_mod_cast hw2
    · rw [if_pos (by simp [ht])] at h
      simp at h

theorem span_complIndex (L : Nat) (n : Node) (ev : Env) (hw : WfAt L n)
    (spec : ComplSpec) (err : Option CErr)
    (h : complIndex n ev = (some spec, err)) :
    0 ≤ spec.begin_ ∧ spec.begin_ ≤ spec.end_ ∧ spec.end_ ≤ (L : Int) := by
  unfold complIndex at h
  rcases hfi : findIndexContext n with ⟨b, e2, cur, q, ixe⟩
  rw [hfi] at h
  dsimp only at h
  by_cases hb : b = -1
  · rw [if_pos hb] at h
    simp at h
  · rw [if_neg hb] at h
    rcases hpe : ev.purelyEvalPrimary ixe with _ | v
    · rw [hpe] at h
      simp at h
    · rw [hpe] at h
      dsimp only at h
      rcases hik : v.iterateKeyer with _ | keys
      · rw [hik] at h
        simp at h
      · rw [hik] at h
        dsimp only at h
        split at h
        · simp at h
        · simp only [Prod.mk.injEq, Option.some.injEq] at h
          obtain ⟨rfl, -⟩ := h
          exact spanBounds L n b e2 hw (findIndexContext_spans n b e2 cur q ixe hfi hb)

theorem span_complFormHead (L : Nat) (n : Node) (ev : Env) (hw : WfAt L n)
    (spec : ComplSpec) (err : Option CErr)
    (h : complFormHead n ev = (some spec, err)) :
    0 ≤ spec.begin_ ∧ spec.begin_ ≤ spec.end_ ∧ spec.end_ ≤ (L : Int) := by
  unfold complFormHead at h
  rcases hfi : findFormHeadContext n with ⟨b, e2, hd, q⟩
  rw [hfi] at h
  dsimp only at h
  by_cases hb : b = -1
  · rw [if_pos hb] at h
    simp at h
  · rw [if_neg hb] at h
    split at h
    · simp at h
    · split at h
      · simp at h
      · simp only [Prod.mk.injEq, Option.some.injEq] at h
        obtain ⟨rfl, -⟩ := h
        exact spanBounds L n b e2 hw (findFormHeadContext_spans n b e2 hd q hfi hb)

theorem span_complRedir (L : Nat) (n : Node) (ev : Env) (hw : WfAt L n)
    (spec : ComplSpec) (err : Option CErr)
    (h : complRedir n ev = (some spec, err)) :
    0 ≤ spec.begin_ ∧ spec.begin_ ≤ spec.end_ ∧ spec.end_ ≤ (L : Int) := by
  unfold complRedir at h
  rcases hfi : findRedirContext n with ⟨b, e2, cur, q⟩
  rw [hfi] at h
  dsimp only at h
  by_cases hb : b = -1
  · rw [if_pos hb] at h
    simp at h
  · rw [if_neg hb] at h
    split at h
    · simp at h
    · split at h
      · simp at h
      · simp only [Prod.mk.injEq, Option.some.injEq] at h
        obtain ⟨rfl, -⟩ := h
        exact spanBounds L n b e2 hw (findRedirContext_spans n b e2 cur q hfi hb)

theorem span_complArg (L : Nat) (n : Node) (ev : Env) (hw : WfAt L n)
    (spec : ComplSpec) (err : Option CErr)
    (h : complArg n ev = (some spec, err)) :
    0 ≤ spec.begin_ ∧ spec.begin_ ≤ spec.end_ ∧ spec.end_ ≤ (L : Int) := by
  unfold complArg at h
  rcases hfi : findArgContext n with ⟨b, e2, cur, q, oform⟩
  rw [hfi] at h
  dsimp only at h
  rcases oform with _ | form
  · simp at h
  · dsimp only at h
    by_cases hb : b = -1
    · rw [if_pos hb] at h
      simp at h
    · rw [if_neg hb] at h
      split at h
      · simp at h
      · split at h
        · simp at h
        · simp only [Prod.mk.injEq, Option.some.injEq] at h
          obtain ⟨rfl, -⟩ := h
          exact spanBounds L n b e2 hw
            (findArgContext_spans n b e2 cur q (some form) hfi hb)

/-- C9: under well-formed offsets of the leaf and its parent, every
complSpec produced by any of the five detectors satisfies
`0 <= begin <= end`, with `end` bounded by the length of the source text
being completed. -/
theorem complSpec_span_invariant (L : Nat) (n : Node) (ev : Env)
    (p : String × Completer) (hp : p ∈ completers) (hw : WfAt L n)
    (spec : ComplSpec) (err : Option CErr)
    (hout : p.2 n ev = (some spec, err)) :
    0 ≤ spec.begin_ ∧ spec.begin_ ≤ spec.end_ ∧ spec.end_ ≤ (L : Int) := by
  simp only [completers, List.mem_cons, List.not_mem_nil, or_false] at hp
  rcases hp with rfl | rfl | rfl | rfl | rfl
  · exact span_complVariable L n ev hw spec err hout
  · exact span_complIndex L n ev hw spec err hout
  · exact span_complFormHead L n ev hw spec err hout
  · exact span_complRedir L n ev hw spec err hout
  · exact span_complArg L n ev hw spec err hout

/-- Witness for C9: the spec produced for the variable primary `$p` in a
source of length 2 satisfies the bounds. -/
theorem complSpec_span_invariant_witness :
    0 ≤ (ComplSpec.mk 1 2 [⟨"pid"⟩]).begin_ ∧
    (ComplSpec.mk 1 2 [⟨"pid"⟩]).begin_ ≤ (ComplSpec.mk 1 2 [⟨"pid"⟩]).end_ ∧
    (ComplSpec.mk 1 2 [⟨"pid"⟩]).end_ ≤ ((2 : Nat) : Int) :=
  complSpec_span_invariant 2 nVarW envW ("variable", complVariable)
    (by simp [completers]) ⟨⟨by decide, by decide, fun _ _ => by decide⟩,
      fun p hp => Option.noConfusion hp⟩
    ⟨1, 2, [⟨"pid"⟩]⟩ none (by decide)
